import Mathlib

/-!
Shallow embedding of the storage-ownership layer of the `ndarray` repository
(`src/data_traits.rs`) and of the print-index selector (`src/arrayformat.rs`).

Buffers are modelled as `List A`; a raw pointer into a buffer is modelled as
the signed byte difference to the buffer base divided out into an element
offset (`off : Int`, where the byte difference is `off * aSize` and `aSize`
models `mem::size_of::<A>()`).  A reference-counted buffer (`Rc<Vec<A>>`)
is a buffer paired with its strong reference count.
-/

/-- Shared buffer: model of `Rc<Vec<A>>`.  `rc` is the strong reference
count; `Rc::get_mut` succeeds exactly when `rc = 1`. -/
structure SharedBuf (A : Type) where
  data : List A
  rc : Nat
  deriving Repr, DecidableEq

/-- Modelled from the spec: an Array Handle is "a triple of (storage,
dimension descriptor, current element pointer/offset, stride descriptor)"
(§3).  This is `ArrayBase<Rc<Vec<A>>, D>`: the shared storage, the element
offset of `ptr` from the buffer base, the shape and the strides. -/
structure RcHandle (A : Type) where
  buf : SharedBuf A
  off : Int
  dim : List Nat
  strides : List Int
  deriving Repr, DecidableEq

/-- Modelled from the spec: the handle's logical element count
(`self_.dim.size()`), the product of the axis lengths. -/
def dimSize (dim : List Nat) : Nat := dim.prod

/-- Modelled from the spec: the multi-indices of a shape enumerated in the
view's logical (row-major) order, as produced by `self_.iter()`. -/
def indicesOf : List Nat → List (List Nat)
  | [] => [[]]
  | n :: rest => (List.range n).flatMap (fun i => (indicesOf rest).map (fun ix => i :: ix))

/-- Flat element offset contributed by a multi-index under given strides:
the sum of `stride i * index i`. -/
def flatOffset (strides : List Int) (ix : List Nat) : Int :=
  (List.zipWith (fun s i => s * (i : Int)) strides ix).sum

/-- Modelled from the spec: the default (row-major) strides that
`from_shape_vec_unchecked` assigns to a freshly collected buffer, so that
iteration in logical order walks the buffer front to back. -/
def defaultStrides : List Nat → List Int
  | [] => []
  | _ :: rest => (dimSize rest : Int) :: defaultStrides rest

/-- Read the element at signed offset `i` of a buffer.  Out-of-bounds reads
(undefined behaviour in the source) give `none`. -/
def elemAt (l : List A) (i : Int) : Option A :=
  if i < 0 then none else l[i.toNat]?

/-- Modelled from the spec: the sequence of elements logically visible
through the handle's view, read in logical order (`self_.iter()`), as
optional values (`none` marks an out-of-bounds access). -/
def visible (h : RcHandle A) : List (Option A) :=
  (indicesOf h.dim).map (fun ix => elemAt h.buf.data (h.off + flatOffset h.strides ix))

/-- The visible elements with out-of-bounds reads totalized by a default
value; this is the model of `self_.iter().cloned().collect()`. -/
def visibleD [Inhabited A] (h : RcHandle A) : List A :=
  (visible h).map (fun o => o.getD default)

/-- Validity invariant (§3): the current element pointer of every handle,
at every logical position of its view, lies within the allocation bounds
of the buffer, so every read of `visible` succeeds. -/
def Valid (h : RcHandle A) : Prop :=
  ∀ ix ∈ indicesOf h.dim, (elemAt h.buf.data (h.off + flatOffset h.strides ix)).isSome

instance (h : RcHandle A) : Decidable (Valid h) :=
  List.decidableBAll _ _

/-- Offset recomputation of `ensure_unique` / `clone_with_ptr`
(`data_traits.rs:100-103,137-141,146-151`): divide the byte difference by
the element size unless the element size is zero, in which case the offset
is `0`.  The second component records whether the branch that performs the
division was taken. -/
def rebaseOff (aSize : Nat) (byteDiff : Int) : Int × Bool :=
  if aSize ≠ 0 then (byteDiff / (aSize : Int), true) else (0, false)

namespace RcData

/-- Model of `<Rc<Vec<A>> as Data>::_data_slice` (`data_traits.rs:73-75`):
the whole backing buffer. -/
def _data_slice (b : SharedBuf A) : List A := b.data

/-- Model of `<Rc<Vec<A>> as DataMut>::is_unique` (`data_traits.rs:110-112`):
`Rc::get_mut(self).is_some()`, i.e. the reference count is 1. -/
def is_unique (b : SharedBuf A) : Bool := b.rc == 1

/-- Model of `<Rc<Vec<A>> as DataMut>::ensure_unique` (`data_traits.rs:82-108`).
`aSize` models `mem::size_of::<A>()`; the byte difference
`self_.ptr - self_.data.as_ptr()` is `h.off * aSize`.  The first branch is
`Rc::get_mut(..).is_some()`; the second collects the visible elements into a
fresh buffer via `from_shape_vec_unchecked` (fresh `Rc`, pointer at the
start, default strides); the third is `Rc::make_mut` (buffer contents
cloned verbatim) with the pointer rebased by `rebaseOff`. -/
def ensure_unique [Inhabited A] (aSize : Nat) (h : RcHandle A) : RcHandle A :=
  if h.buf.rc = 1 then h
  else if dimSize h.dim ≤ h.buf.data.length / 2 then
    { buf := { data := visibleD h, rc := 1 }
      off := 0
      dim := h.dim
      strides := defaultStrides h.dim }
  else
    { buf := { data := h.buf.data, rc := 1 }
      off := (rebaseOff aSize (h.off * aSize)).1
      dim := h.dim
      strides := h.strides }

/-- Model of `<Rc<Vec<A>> as DataClone>::clone_with_ptr`
(`data_traits.rs:115-120`): `(self.clone(), ptr)` — the clone of an `Rc`
shares the same allocation and increments the strong count by one; the
pointer is preserved. -/
def clone_with_ptr (b : SharedBuf A) (ptr : Int) : SharedBuf A × Int :=
  ({ data := b.data, rc := b.rc + 1 }, ptr)

end RcData

/-- Handle backed by an Owned Buffer: `ArrayBase<Vec<A>, D>` with the
storage inline, the element offset of `ptr`, shape and strides. -/
structure OwnedHandle (A : Type) where
  data : List A
  off : Int
  dim : List Nat
  strides : List Int
  deriving Repr, DecidableEq

/-- Handle backed by a view (`ArrayBase<ViewRepr<&A>, D>` or the `&mut`
variant): the storage itself is a marker holding no data, the elements
live in memory owned elsewhere (`mem`), and the handle carries the element
offset of its pointer into that memory, shape and strides. -/
structure ViewHandle (A : Type) where
  mem : List A
  off : Int
  dim : List Nat
  strides : List Int
  deriving Repr, DecidableEq

/-- Elements logically visible through a view handle, in logical order. -/
def viewVisible (h : ViewHandle A) : List (Option A) :=
  (indicesOf h.dim).map (fun ix => elemAt h.mem (h.off + flatOffset h.strides ix))

namespace VecData

/-- Model of `<Vec<A> as Data>::_data_slice` (`data_traits.rs:122-127`):
the whole buffer. -/
def _data_slice (v : List A) : List A := v

/-- Model of `<Vec<A> as DataMut>` (`data_traits.rs:129`): the impl body is
empty, so the default `ensure_unique` (`data_traits.rs:41-44`) applies — an
empty function that touches nothing. -/
def ensure_unique (h : OwnedHandle A) : OwnedHandle A := h

/-- Model of the default `is_unique` (`data_traits.rs:48-50`): always true. -/
def is_unique : Bool := true

/-- Model of `<Vec<A> as DataClone>::clone_with_ptr` (`data_traits.rs:134-143`):
clone the buffer; start the new pointer at the clone's base and, when the
element size is nonzero, rebase it by the element offset of `ptr` from the
old base (`byteDiff = off * aSize`). -/
def clone_with_ptr (aSize : Nat) (v : List A) (off : Int) : List A × Int :=
  (v, if aSize ≠ 0 then (0 : Int) + (rebaseOff aSize (off * aSize)).1 else 0)

/-- Model of `<Vec<A> as DataClone>::clone_from_with_ptr`
(`data_traits.rs:145-154`): compute the offset (zero for a zero-sized
element type), `clone_from` the other buffer, return the rebased pointer. -/
def clone_from_with_ptr (aSize : Nat) (other : List A) (off : Int) : List A × Int :=
  let ourOff := (rebaseOff aSize (off * aSize)).1
  (other, ourOff)

/-- Model of `<Vec<A> as DataOwned>::new` (`data_traits.rs:202-204`): the
elements themselves. -/
def new (elements : List A) : List A := elements

/-- Model of `<Vec<A> as DataOwned>::into_shared` (`data_traits.rs:205-207`):
`Rc::new(self)` — wrap the same allocation, reference count 1. -/
def into_shared (v : List A) : SharedBuf A := { data := v, rc := 1 }

end VecData

namespace RcData

/-- Model of `<Rc<Vec<A>> as DataOwned>::into_shared` (`data_traits.rs:214-216`):
the identity. -/
def into_shared (b : SharedBuf A) : SharedBuf A := b

end RcData

namespace ViewData

/-- Model of `<ViewRepr<&A> as Data>::_data_slice` (`data_traits.rs:159-161`):
the empty slice. -/
def _data_slice (A : Type) : List A := []

/-- Model of `<ViewRepr<&A> as DataClone>::clone_with_ptr`
(`data_traits.rs:164-168`): copy the marker, preserve the pointer. -/
def clone_with_ptr (h : ViewHandle A) (ptr : Int) : ViewHandle A × Int := (h, ptr)

end ViewData

namespace ViewMutData

/-- Model of `<ViewRepr<&mut A> as Data>::_data_slice` (`data_traits.rs:172-174`):
the empty slice. -/
def _data_slice (A : Type) : List A := []

/-- Model of `<ViewRepr<&mut A> as DataMut>` (`data_traits.rs:177`): the
impl body is empty, so the default no-op `ensure_unique` applies. -/
def ensure_unique (h : ViewHandle A) : ViewHandle A := h

/-- Model of the default `is_unique` (`data_traits.rs:48-50`): always true. -/
def is_unique : Bool := true

end ViewMutData

/-- Model of `PrintableCell` (`arrayformat.rs:44-47`). -/
inductive PrintableCell where
  | elementIndex (i : Nat)
  | ellipses
  deriving Repr, DecidableEq

/-- Model of `to_be_printed` (`arrayformat.rs:49-61`): the indices printed
for an axis of length `length` under print limit `limit`; an `ellipses`
cell marks omitted indices. -/
def to_be_printed (length limit : Nat) : List PrintableCell :=
  if length ≤ 2 * limit then
    (List.range length).map PrintableCell.elementIndex
  else
    ((List.range limit).map PrintableCell.elementIndex ++ [PrintableCell.ellipses])
      ++ (List.range' (length - limit) limit).map PrintableCell.elementIndex

/-- Count of element-index cells in a printable-cell list (the number of
elements that get printed). -/
def countIndexCells (l : List PrintableCell) : Nat :=
  (l.filter fun c => match c with
    | PrintableCell.elementIndex _ => true
    | PrintableCell.ellipses => false).length

theorem indicesOf_length (dim : List Nat) : (indicesOf dim).length = dimSize dim := by
  induction dim with
  | nil => rfl
  | cons n rest ih =>
    simp only [indicesOf, List.length_flatMap, Function.comp_def, List.length_map, ih]
    simp [dimSize, List.map_const', mul_comm]

theorem range_flatMap_add (n m : Nat) :
    (List.range n).flatMap (fun i => (List.range m).map (fun j => m * i + j))
      = List.range (n * m) := by
  induction n with
  | zero => simp
  | succ k ih =>
    rw [List.range_succ, List.flatMap_append, ih]
    simp only [List.flatMap_cons, List.flatMap_nil, List.append_nil]
    rw [Nat.succ_mul, List.range_add]
    congr 1
    apply List.map_congr_left
    intro j _
    ring

theorem flatOffset_cons (s : Int) (ss : List Int) (i : Nat) (ix : List Nat) :
    flatOffset (s :: ss) (i :: ix) = s * i + flatOffset ss ix := rfl

theorem range_flatMap_int (n m : Nat) :
    (List.range n).flatMap (fun i => (List.range m).map (fun j : Nat => ((m : Int) * i + (j : Int))))
      = (List.range (n * m)).map (fun j : Nat => (j : Int)) := by
  have h := congrArg (List.map (fun j : Nat => (j : Int))) (range_flatMap_add n m)
  rw [List.map_flatMap] at h
  simp only [List.map_map] at h
  rw [← h]
  refine congrArg ((List.range n).flatMap) (funext fun i => ?_)
  apply List.map_congr_left
  intro j _
  simp only [Function.comp_apply]
  push_cast
  ring

theorem flatOffset_default (dim : List Nat) :
    (indicesOf dim).map (fun ix => flatOffset (defaultStrides dim) ix)
      = (List.range (dimSize dim)).map (fun j : Nat => (j : Int)) := by
  induction dim with
  | nil => rfl
  | cons n rest ih =>
    have hsz : dimSize (n :: rest) = n * dimSize rest := by simp [dimSize]
    rw [hsz, ← range_flatMap_int n (dimSize rest)]
    simp only [indicesOf, List.map_flatMap, List.map_map]
    refine congrArg ((List.range n).flatMap) (funext fun i => ?_)
    have hcomp : ((fun ix => flatOffset (defaultStrides (n :: rest)) ix) ∘
          (fun ix : List Nat => i :: ix))
        = ((fun x : Int => (dimSize rest : Int) * i + x) ∘
            (fun ix => flatOffset (defaultStrides rest) ix)) := rfl
    rw [hcomp, ← List.map_map, ih, List.map_map]
    rfl

theorem map_elemAt_range (l : List A) :
    (List.range l.length).map (fun j : Nat => elemAt l (j : Int)) = l.map some := by
  induction l with
  | nil => rfl
  | cons a t ih =>
    rw [List.length_cons, List.range_succ_eq_map]
    simp only [List.map_cons, List.map_map]
    have tail : ∀ j ∈ List.range t.length,
        ((fun j : Nat => elemAt (a :: t) (j : Int)) ∘ Nat.succ) j = elemAt t (j : Int) := by
      intro j _
      simp only [Function.comp_apply]
      simp [elemAt, show ¬((j : Int) + 1 < 0) from by omega, show ¬((j : Int) < 0) from by omega]
    rw [List.map_congr_left tail, ih]
    simp [elemAt]

theorem visibleD_length [Inhabited A] (h : RcHandle A) :
    (visibleD h).length = dimSize h.dim := by
  simp [visibleD, visible, indicesOf_length]

theorem visibleD_map_some [Inhabited A] (h : RcHandle A) (hv : Valid h) :
    (visibleD h).map some = visible h := by
  unfold visibleD visible
  rw [List.map_map, List.map_map]
  apply List.map_congr_left
  intro ix hix
  obtain ⟨a, ha⟩ := Option.isSome_iff_exists.mp (hv ix hix)
  simp [Function.comp_apply, ha]

theorem visible_fresh [Inhabited A] (h : RcHandle A) (hv : Valid h) :
    (indicesOf h.dim).map
        (fun ix => elemAt (visibleD h) ((0 : Int) + flatOffset (defaultStrides h.dim) ix))
      = visible h := by
  calc (indicesOf h.dim).map
        (fun ix => elemAt (visibleD h) ((0 : Int) + flatOffset (defaultStrides h.dim) ix))
      = (indicesOf h.dim).map
          ((fun i => elemAt (visibleD h) i) ∘ (fun ix => flatOffset (defaultStrides h.dim) ix)) := by
        apply List.map_congr_left
        intro ix _
        simp
    _ = ((indicesOf h.dim).map (fun ix => flatOffset (defaultStrides h.dim) ix)).map
          (fun i => elemAt (visibleD h) i) := by
        rw [List.map_map]
    _ = ((List.range (dimSize h.dim)).map (fun j : Nat => (j : Int))).map
          (fun i => elemAt (visibleD h) i) := by
        rw [flatOffset_default]
    _ = (List.range (dimSize h.dim)).map (fun j : Nat => elemAt (visibleD h) (j : Int)) := by
        rw [List.map_map]
        rfl
    _ = (List.range (visibleD h).length).map (fun j : Nat => elemAt (visibleD h) (j : Int)) := by
        rw [visibleD_length]
    _ = (visibleD h).map some := map_elemAt_range _
    _ = visible h := visibleD_map_some h hv

theorem countIndexCells_map_elementIndex (l : List Nat) :
    countIndexCells (l.map PrintableCell.elementIndex) = l.length := by
  unfold countIndexCells
  rw [List.filter_map]
  simp [Function.comp_def]

theorem countIndexCells_append (l₁ l₂ : List PrintableCell) :
    countIndexCells (l₁ ++ l₂) = countIndexCells l₁ + countIndexCells l₂ := by
  unfold countIndexCells
  rw [List.filter_append, List.length_append]

/-- C1: for every array handle backed by a Shared Buffer (of an element
type of nonzero size), running the promotion protocol `ensure_unique`
leaves the sequence of elements logically visible through the handle's
view, read in logical order, unchanged; only the backing buffer and the
pointer may change. -/
theorem promotion_preserves_visible [Inhabited A] (aSize : Nat) (h : RcHandle A)
    (ha : aSize ≠ 0) (hv : Valid h) :
    visible (RcData.ensure_unique aSize h) = visible h := by
  unfold RcData.ensure_unique
  by_cases h1 : h.buf.rc = 1
  · rw [if_pos h1]
  · rw [if_neg h1]
    by_cases h2 : dimSize h.dim ≤ h.buf.data.length / 2
    · rw [if_pos h2]
      show (indicesOf h.dim).map
          (fun ix => elemAt (visibleD h) ((0 : Int) + flatOffset (defaultStrides h.dim) ix))
        = visible h
      exact visible_fresh h hv
    · rw [if_neg h2]
      have hoff : (rebaseOff aSize (h.off * aSize)).1 = h.off := by
        unfold rebaseOff
        rw [if_pos ha]
        exact Int.mul_ediv_cancel _ (Int.natCast_ne_zero.mpr ha)
      show (indicesOf h.dim).map
          (fun ix => elemAt h.buf.data ((rebaseOff aSize (h.off * aSize)).1 + flatOffset h.strides ix))
        = visible h
      rw [hoff]
      rfl

/-- C1 witness: a concrete shared handle (refcount 2, a 2×2 view offset
inside a 6-element buffer) whose visible elements survive promotion. -/
theorem promotion_preserves_visible_witness :
    visible (RcData.ensure_unique 4 (⟨⟨[0,1,2,3,4,5], 2⟩, 1, [2,2], [3,1]⟩ : RcHandle Nat))
      = visible (⟨⟨[0,1,2,3,4,5], 2⟩, 1, [2,2], [3,1]⟩ : RcHandle Nat) :=
  promotion_preserves_visible 4 ⟨⟨[0,1,2,3,4,5], 2⟩, 1, [2,2], [3,1]⟩ (by decide) (by decide)

/-- C2: for a shared handle (refcount > 1) whose visible element count is
at most half the buffer's total, promotion produces a fresh buffer whose
length is exactly the visible element count, whose elements are, in order,
the pre-promotion logically visible elements, and whose pointer is at the
start of the new buffer. -/
theorem compacting_copy_correct [Inhabited A] (aSize : Nat) (h : RcHandle A)
    (hrc : 1 < h.buf.rc) (hhalf : dimSize h.dim ≤ h.buf.data.length / 2) (hv : Valid h) :
    (RcData.ensure_unique aSize h).buf.data.length = dimSize h.dim ∧
    (RcData.ensure_unique aSize h).buf.data.map some = visible h ∧
    (RcData.ensure_unique aSize h).off = 0 := by
  unfold RcData.ensure_unique
  rw [if_neg (by omega), if_pos hhalf]
  exact ⟨visibleD_length h, visibleD_map_some h hv, rfl⟩

/-- C2 witness: a 2-element view (offset 2) of a shared 8-element buffer
is compacted to a fresh 2-element buffer. -/
theorem compacting_copy_correct_witness :
    (RcData.ensure_unique 8 (⟨⟨[0,1,2,3,4,5,6,7], 2⟩, 2, [2], [1]⟩ : RcHandle Nat)).buf.data.length
        = dimSize [2] ∧
    (RcData.ensure_unique 8 (⟨⟨[0,1,2,3,4,5,6,7], 2⟩, 2, [2], [1]⟩ : RcHandle Nat)).buf.data.map some
        = visible (⟨⟨[0,1,2,3,4,5,6,7], 2⟩, 2, [2], [1]⟩ : RcHandle Nat) ∧
    (RcData.ensure_unique 8 (⟨⟨[0,1,2,3,4,5,6,7], 2⟩, 2, [2], [1]⟩ : RcHandle Nat)).off = 0 :=
  compacting_copy_correct 8 ⟨⟨[0,1,2,3,4,5,6,7], 2⟩, 2, [2], [1]⟩
    (by decide) (by decide) (by decide)

/-- C3: for a shared handle (refcount > 1) whose visible element count
exceeds half the buffer's total, promotion deep-copies the entire backing
buffer (every element) and leaves the pointer offset relative to the
buffer start unchanged (element size nonzero). -/
theorem full_duplication_correct [Inhabited A] (aSize : Nat) (h : RcHandle A)
    (hrc : 1 < h.buf.rc) (hhalf : ¬ dimSize h.dim ≤ h.buf.data.length / 2) (ha : aSize ≠ 0) :
    (RcData.ensure_unique aSize h).buf.data = h.buf.data ∧
    (RcData.ensure_unique aSize h).off = h.off ∧
    (RcData.ensure_unique aSize h).buf.rc = 1 := by
  unfold RcData.ensure_unique
  rw [if_neg (by omega), if_neg hhalf]
  refine ⟨rfl, ?_, rfl⟩
  show (rebaseOff aSize (h.off * aSize)).1 = h.off
  unfold rebaseOff
  rw [if_pos ha]
  exact Int.mul_ediv_cancel _ (Int.natCast_ne_zero.mpr ha)

/-- C3 witness: a 3-element view of a shared 4-element buffer triggers the
full-duplication branch; buffer and offset are preserved. -/
theorem full_duplication_correct_witness :
    (RcData.ensure_unique 8 (⟨⟨[0,1,2,3], 2⟩, 1, [3], [1]⟩ : RcHandle Nat)).buf.data = [0,1,2,3] ∧
    (RcData.ensure_unique 8 (⟨⟨[0,1,2,3], 2⟩, 1, [3], [1]⟩ : RcHandle Nat)).off = 1 ∧
    (RcData.ensure_unique 8 (⟨⟨[0,1,2,3], 2⟩, 1, [3], [1]⟩ : RcHandle Nat)).buf.rc = 1 :=
  full_duplication_correct 8 ⟨⟨[0,1,2,3], 2⟩, 1, [3], [1]⟩ (by decide) (by decide) (by decide)

/-- C4: after one run of the promotion protocol the handle's buffer has
reference count exactly 1 (`is_unique` holds), so a second consecutive run
is a no-op. -/
theorem promotion_idempotent [Inhabited A] (aSize : Nat) (h : RcHandle A) :
    (RcData.ensure_unique aSize h).buf.rc = 1 ∧
    RcData.is_unique (RcData.ensure_unique aSize h).buf = true ∧
    RcData.ensure_unique aSize (RcData.ensure_unique aSize h) = RcData.ensure_unique aSize h := by
  have hrc : (RcData.ensure_unique aSize h).buf.rc = 1 := by
    unfold RcData.ensure_unique
    by_cases h1 : h.buf.rc = 1
    · rw [if_pos h1]
      exact h1
    · rw [if_neg h1]
      by_cases h2 : dimSize h.dim ≤ h.buf.data.length / 2
      · rw [if_pos h2]
      · rw [if_neg h2]
  refine ⟨hrc, ?_, ?_⟩
  · simp [RcData.is_unique, hrc]
  · conv_lhs => rw [RcData.ensure_unique]
    rw [if_pos hrc]

/-- C5: with a zero-sized element type, the offset recomputation of the
promotion protocol and of the duplicate-with-rebase operations takes the
branch that performs no division and yields offset 0. -/
theorem zero_size_offset_safe (d : Int) (v : List Nat) (off : Int) (h : RcHandle Nat)
    (hrc : 1 < h.buf.rc) (hhalf : ¬ dimSize h.dim ≤ h.buf.data.length / 2) :
    rebaseOff 0 d = (0, false) ∧
    (VecData.clone_with_ptr 0 v off).2 = 0 ∧
    (VecData.clone_from_with_ptr 0 v off).2 = 0 ∧
    (RcData.ensure_unique 0 h).off = 0 := by
  refine ⟨rfl, rfl, rfl, ?_⟩
  unfold RcData.ensure_unique
  rw [if_neg (by omega), if_neg hhalf]
  rfl

/-- C5 witness: concrete zero-sized-element promotion and duplication
yield offset 0 without division. -/
theorem zero_size_offset_safe_witness :
    rebaseOff 0 5 = (0, false) ∧
    (VecData.clone_with_ptr 0 [1,2,3] 2).2 = 0 ∧
    (VecData.clone_from_with_ptr 0 [1,2,3] 2).2 = 0 ∧
    (RcData.ensure_unique 0 (⟨⟨[1,2], 2⟩, 1, [2], [1]⟩ : RcHandle Nat)).off = 0 :=
  zero_size_offset_safe 5 [1,2,3] 2 ⟨⟨[1,2], 2⟩, 1, [2], [1]⟩ (by decide) (by decide)

/-- C6: duplicating a handle of a Shared Buffer via `clone_with_ptr`
increments the buffer's reference count by exactly 1, keeps the same
element sequence (no element is copied), and returns the input pointer
unchanged. -/
theorem rc_clone_increments (b : SharedBuf A) (p : Int) :
    (RcData.clone_with_ptr b p).1.rc = b.rc + 1 ∧
    (RcData.clone_with_ptr b p).1.data = b.data ∧
    (RcData.clone_with_ptr b p).2 = p :=
  ⟨rfl, rfl, rfl⟩

/-- C7: `into_shared` on an Owned Buffer returns a Shared Buffer wrapping
the same allocation with reference count initialized to 1. -/
theorem into_shared_correct (v : List A) :
    (VecData.into_shared v).data = v ∧ (VecData.into_shared v).rc = 1 :=
  ⟨rfl, rfl⟩

/-- C9: for handles backed by an Owned Buffer (`Vec`) or a Mutable View,
`ensure_unique` is a no-op leaving every component of the handle unchanged
and `is_unique` always returns true. -/
theorem owned_view_mut_no_op (h : OwnedHandle A) (g : ViewHandle A) :
    VecData.ensure_unique h = h ∧ VecData.is_unique = true ∧
    ViewMutData.ensure_unique g = g ∧ ViewMutData.is_unique = true :=
  ⟨rfl, rfl, rfl, rfl⟩

/-- C8 counterexample: a view-backed handle (borrowed memory `[5]`, a
1-element view) has the value 5 reachable through it, yet `_data_slice`
of both view storage variants is the empty slice, which does not contain
it — so `_data_slice` does not return the reachable elements for every
storage variant. -/
theorem data_slice_view_counterexample :
    some 5 ∈ viewVisible (⟨[5], 0, [1], [1]⟩ : ViewHandle Nat) ∧
    5 ∉ ViewData._data_slice Nat ∧
    5 ∉ ViewMutData._data_slice Nat :=
  ⟨by decide, by decide, by decide⟩

/-- C8 amended: `_data_slice` returns the full backing buffer for the
buffer-backed variants — for a Shared-Buffer-backed handle every element
actually readable through the handle is contained in the returned slice,
and for an Owned Buffer the slice is the whole buffer — while for both
view variants it returns the empty slice. -/
theorem data_slice_amended (h : RcHandle A) (v : List A) :
    (visible h).reduceOption ⊆ RcData._data_slice h.buf ∧
    VecData._data_slice v = v ∧
    ViewData._data_slice A = [] ∧
    ViewMutData._data_slice A = [] := by
  refine ⟨?_, rfl, rfl, rfl⟩
  intro a hmem
  have hsome : some a ∈ visible h := List.reduceOption_mem_iff.mp hmem
  unfold visible at hsome
  rcases List.mem_map.mp hsome with ⟨ix, _, hix⟩
  unfold elemAt at hix
  by_cases hneg : h.off + flatOffset h.strides ix < 0
  · rw [if_pos hneg] at hix
    cases hix
  · rw [if_neg hneg] at hix
    exact List.getElem?_mem hix

/-- C8 amended witness: a concrete shared handle whose readable elements
are all contained in its `_data_slice`. -/
theorem data_slice_amended_witness :
    (visible (⟨⟨[0,1,2,3], 2⟩, 1, [2], [1]⟩ : RcHandle Nat)).reduceOption
      ⊆ RcData._data_slice (⟨[0,1,2,3], 2⟩ : SharedBuf Nat) :=
  (data_slice_amended (⟨⟨[0,1,2,3], 2⟩, 1, [2], [1]⟩ : RcHandle Nat) [1,2]).1

/-- C10: the formatting index selector returns the indices `0..length` in
order with no ellipsis marker when `length ≤ 2*limit`; otherwise it
returns exactly the first `limit` indices, a single ellipsis cell, then
the last `limit` indices (`length-limit..length`); in either case at most
`2*limit` element indices are printed for the axis. -/
theorem to_be_printed_correct (length limit : Nat) :
    (length ≤ 2 * limit →
      to_be_printed length limit = (List.range length).map PrintableCell.elementIndex ∧
      PrintableCell.ellipses ∉ to_be_printed length limit) ∧
    (2 * limit < length →
      to_be_printed length limit
        = ((List.range limit).map PrintableCell.elementIndex
            ++ [PrintableCell.ellipses])
            ++ (List.range' (length - limit) limit).map PrintableCell.elementIndex) ∧
    countIndexCells (to_be_printed length limit) ≤ 2 * limit := by
  refine ⟨?_, ?_, ?_⟩
  · intro hle
    unfold to_be_printed
    rw [if_pos hle]
    refine ⟨rfl, ?_⟩
    intro hmem
    rcases List.mem_map.mp hmem with ⟨i, _, hcell⟩
    cases hcell
  · intro hgt
    unfold to_be_printed
    rw [if_neg (by omega)]
  · unfold to_be_printed
    by_cases hle : length ≤ 2 * limit
    · rw [if_pos hle]
      rw [countIndexCells_map_elementIndex, List.length_range]
      exact hle
    · rw [if_neg hle]
      rw [countIndexCells_append, countIndexCells_append,
        countIndexCells_map_elementIndex, countIndexCells_map_elementIndex,
        List.length_range, List.length_range']
      have : countIndexCells [PrintableCell.ellipses] = 0 := rfl
      omega

/-- C10 witness: for axis length 7 and limit 3 the long-axis branch is
taken, and for length 4 with limit 3 the short-axis branch is taken. -/
theorem to_be_printed_correct_witness :
    (to_be_printed 7 3
      = ((List.range 3).map PrintableCell.elementIndex ++ [PrintableCell.ellipses])
          ++ (List.range' 4 3).map PrintableCell.elementIndex) ∧
    countIndexCells (to_be_printed 7 3) ≤ 2 * 3 ∧
    to_be_printed 4 3 = (List.range 4).map PrintableCell.elementIndex :=
  ⟨(to_be_printed_correct 7 3).2.1 (by decide), (to_be_printed_correct 7 3).2.2,
    ((to_be_printed_correct 4 3).1 (by decide)).1⟩
